import Mathlib

/-!
Verification development for the schema build script and code generator of
the gateway IPC types repository (files `build.rs` and `extras_generator.rs`).

The development shallowly embeds the reference resolver (`resolve_object`,
`replace_ref`), the definitions-table insertion routine (`insert`), and the
top-level merge loop (`merge_schema`) of `build.rs`, plus the two-phase
message parser emitted by `generate_extras` in `extras_generator.rs`.

Modelling conventions:
* `serde_json::Value` becomes the inductive `Json`; numbers are modelled as
  integers (the build script never performs numeric arithmetic and every
  numeric literal it inspects is an integer).
* Rust `HashMap`/`HashSet` are modelled by association lists and lists with
  the observable get/remove/insert/contains semantics.
* File paths are lists of path components (`Fpath`); `Path::join` appends
  components, `Path::iter` is the component list itself, `Path::parent`
  drops the last component, `Path::strip_prefix` removes a component-list
  root.  Paths are assumed normalized (no `.`/`..`/empty components), which
  holds for every path the build script constructs from its inputs.
* The file system is a finite association `Fs` from absolute paths to
  `Option Json`: an absent path is unreadable (`read_to_string` fails), a
  path mapped to `none` is readable but unparsable (`serde_json::from_str`
  fails), and a path mapped to `some v` parses to `v`.
* Panics (`expect` / `unwrap`) become `Except.error` values of the `Err`
  type; a run that panics produces no output, which the `Except` monad
  captures by short-circuiting.
* The cross-file recursion of `replace_ref` into a referenced file's content
  is not structurally decreasing, so the embedding threads an explicit
  `fuel` counter that is decremented exactly at that recursion; running out
  of fuel yields the artificial error `Err.fuelExhausted`.  Termination of
  the Rust code corresponds to the theorem that enough fuel (more than the
  number of not-yet-visited files) never produces `Err.fuelExhausted`.
-/

namespace Build

/-- JSON values (`serde_json::Value`).  Object fields are an association
list; all observations in this development go through `alistGet`, matching
the key-based access of the Rust `HashMap`/`Map` types. -/
inductive Json where
  | null
  | bool (b : Bool)
  | num (n : Int)
  | str (s : String)
  | arr (elems : List Json)
  | obj (fields : List (String × Json))

mutual

/-- Structural boolean equality on `Json` (used to derive decidable
equality; the automatic derivation does not handle this nested inductive). -/
def Json.beq : Json → Json → Bool
  | Json.null, Json.null => true
  | Json.bool a, Json.bool b => a == b
  | Json.num a, Json.num b => a == b
  | Json.str a, Json.str b => a == b
  | Json.arr a, Json.arr b => Json.beqList a b
  | Json.obj a, Json.obj b => Json.beqFields a b
  | _, _ => false

def Json.beqList : List Json → List Json → Bool
  | [], [] => true
  | a :: as2, b :: bs => Json.beq a b && Json.beqList as2 bs
  | _, _ => false

def Json.beqFields : List (String × Json) → List (String × Json) → Bool
  | [], [] => true
  | (k, a) :: as2, (k2, b) :: bs => k == k2 && Json.beq a b && Json.beqFields as2 bs
  | _, _ => false

end

/-- `HashMap::get` on an association list: the value of the first entry with
the given key. -/
def alistGet (k : String) : List (String × Json) → Option Json
  | [] => none
  | (k2, v) :: rest => if k2 = k then some v else alistGet k rest

/-- `HashMap::remove` on an association list: drop every entry with the
given key. -/
def alistRemove (k : String) : List (String × Json) → List (String × Json)
  | [] => []
  | (k2, v) :: rest => if k2 = k then alistRemove k rest else (k2, v) :: alistRemove k rest

/-- `HashMap::insert` on an association list: bind `k` to `v`, replacing any
previous binding. -/
def alistInsert (k : String) (v : Json) (m : List (String × Json)) : List (String × Json) :=
  (k, v) :: alistRemove k m

/-- A file path, as its list of components. -/
abbrev Fpath := List String

/-- The file system: absolute path ↦ `none` (readable but unparsable) or
`some v` (parses to `v`); an absent path is unreadable. -/
abbrev Fs := List (Fpath × Option Json)

/-- `read_to_string` + `from_str` access to the modelled file system. -/
def fsRead (fs : Fs) (p : Fpath) : Option (Option Json) :=
  match fs with
  | [] => none
  | (q, c) :: rest => if q = p then some c else fsRead rest p

/-- The absolute paths of the readable files. -/
def fsDom (fs : Fs) : List Fpath := fs.map Prod.fst

/-- `Path::strip_prefix(root)` followed by `.unwrap()`: `none` models the
panic when `root` is not a component-wise prefix. -/
def stripRoot (rootPath p : Fpath) : Option Fpath :=
  if rootPath.isPrefixOf p then some (p.drop rootPath.length) else none

/-- Helper for `splitOnChar`: split a character list at every occurrence of
`c`, keeping empty pieces (so the result always has at least one piece). -/
def splitAux (c : Char) : List Char → List Char → List (List Char)
  | [], acc => [acc.reverse]
  | x :: xs, acc =>
      if x = c then acc.reverse :: splitAux c xs []
      else splitAux c xs (x :: acc)

/-- `str::split` on a single separator character (used with `'#'` for
reference strings and `'/'` for relative path components). -/
def splitOnChar (c : Char) (s : String) : List String :=
  (splitAux c s.toList []).map fun l => String.mk l

/-- `Path::file_stem` for a file name: the portion before the last `.`,
except that a lone leading `.` does not count as an extension separator. -/
def file_stem (name : String) : String :=
  let cs := name.toList
  match cs.reverse.findIdx? (fun ch => ch = '.') with
  | none => name
  | some i =>
      let j := cs.length - 1 - i
      if j = 0 then name else String.mk (cs.take j)

/-- The mutable state threaded through resolution: the `definitions` table
(`HashMap<String, Value>`) and the `visited` set of absolute file paths
(`HashSet<String>`). -/
structure St where
  definitions : List (String × Json)
  visited : List Fpath

/-- Fatal outcomes of the build script.  Each constructor models one panic
site of `build.rs`; `fuelExhausted` is an artifact of the fuel embedding and
corresponds to no behaviour of the Rust code. -/
inductive Err where
  | couldNotRead (relativeFilePath : String)
  | parseUnwrap
  | stripRootPanic
  | couldNotReadEntry (path : Fpath)
  | couldNotParseEntry (path : Fpath)
  | fuelExhausted
deriving DecidableEq

/-- The panic message of each fatal outcome.  `replace_ref` reads a
referenced file with `expect("Could not read {relative path}")`, but parses
it with a bare `.unwrap()`, whose panic message renders only the
`serde_json` decode error (position information, never a file path). -/
def errMsg : Err → String
  | Err.couldNotRead p => "Could not read " ++ p
  | Err.parseUnwrap => "called Result::unwrap() on an Err value: serde_json decode error"
  | Err.stripRootPanic => "called Result::unwrap() on an Err value: StripPrefixError"
  | Err.couldNotReadEntry p => "Could not read " ++ String.intercalate "/" p
  | Err.couldNotParseEntry p => "Could not parse " ++ String.intercalate "/" p
  | Err.fuelExhausted => "fuel exhausted"

/-- The canonical reference string built at the end of `replace_ref`:
`"#/definitions"`, then `/`-joined path segments when there are any, then
the original pointer component verbatim when one exists.  (The Rust code
guards the segment part with `reference_parts.capacity() > 0`, which for a
freshly collected vector coincides with nonemptiness.) -/
def canonicalRef (referenceParts : List String) (pathOption : Option String) : String :=
  let s := "#/definitions"
  let s := if referenceParts.isEmpty then s
           else s ++ "/" ++ String.intercalate "/" referenceParts
  match pathOption with
  | some p => s ++ p
  | none => s

/-- `insert` from `build.rs`: walk the path segments, reusing an existing
object at a segment, keeping any other existing value, and materializing
fresh nested objects for missing segments.  The Rust function both mutates
`map` and returns a `Value`; the pair returned here is (return value,
mutated map).  Only the `None => insert(parts, value, &mut new_map)` branch
uses the callee's return value; `remove` followed by `insert` on the
`HashMap` is modelled by `alistInsert`, which has the same get-semantics. -/
def insert (parts : List String) (value : Json) (map : List (String × Json)) :
    Json × List (String × Json) :=
  match parts with
  | [] => (value, map)
  | key :: rest =>
      match alistGet key map with
      | some (Json.obj existingMap) =>
          let replacedMap := (insert rest value existingMap).2
          let map2 := alistInsert key (Json.obj replacedMap) map
          (Json.obj map2, map2)
      | some x =>
          let map2 := alistInsert key x map
          (Json.obj map2, map2)
      | none =>
          let newValue := (insert rest value []).1
          let map2 := alistInsert key newValue map
          (Json.obj map2, map2)

/-- Navigate a chain of object keys inside a `Json` value (observer used to
state properties of `insert`; not part of the Rust code). -/
def getPath : List String → Json → Option Json
  | [], v => some v
  | key :: rest, Json.obj fields =>
      match alistGet key fields with
      | some v => getPath rest v
      | none => none
  | _ :: _, _ => none

/-- Decision procedure (observer, not part of the Rust code): does
`insert parts value map` actually store `value` at the full path?  It does
exactly when the walk runs through existing objects and reaches a missing
key: an existing non-object anywhere on the path, or any existing value at
the final segment, makes `insert` keep the old content and drop `value`. -/
def insertWrites (parts : List String) (map : List (String × Json)) : Bool :=
  match parts with
  | [] => false
  | key :: rest =>
      match alistGet key map with
      | some (Json.obj existingMap) =>
          match rest with
          | [] => false
          | _ :: _ => insertWrites rest existingMap
      | some _ => false
      | none => true

/-- Observer: the string emitted by a successful `replace_ref`, or `""` on
any other outcome. -/
def emittedString (r : Except Err (Json × St)) : String :=
  match r with
  | Except.ok (Json.str s, _) => s
  | _ => ""

/-- The type of the cross-file recursion of `replace_ref` back into
`resolve_object`: given the new `base_path`, the new `current_file`, the
parsed content of the referenced file, and the current state, produce the
resolved content and the updated state.  The recursion through a referenced
file's content is not structurally decreasing, so the per-tree traversal
below abstracts over it and `resolveFuel` ties the knot with an explicit
fuel counter. -/
abbrev Descend := Fpath → Option String → Json → St → Except Err (Json × St)

/-- The `if file_option.is_some()` block of `replace_ref`: on a first visit
of a ref that carries its own file component, mark the absolute path
visited, parse the file's content, resolve it (via `descend`) with
`base_path` set to the file's directory and `current_file` set to the
relative path, and merge-insert the result into the definitions table at
the computed key path; in every other case leave the state unchanged. -/
def visitAndInsert (descend : Descend) (fileIsSome : Bool)
    (relativeFilePath : String) (absoluteFilePath referenceParts : Fpath)
    (contentOpt : Option Json) (st : St) : Except Err St :=
  if fileIsSome then
    if absoluteFilePath ∈ st.visited then Except.ok st
    else
      match contentOpt with
      | none => Except.error Err.parseUnwrap
      | some contentValue =>
          match descend absoluteFilePath.dropLast (some relativeFilePath) contentValue
              { st with visited := absoluteFilePath :: st.visited } with
          | Except.error e => Except.error e
          | Except.ok (resolvedValue, st2) =>
              Except.ok { st2 with definitions :=
                (insert referenceParts resolvedValue st2.definitions).2 }
  else Except.ok st

/-- `replace_ref` from `build.rs`: split the reference string on `#` into a
(possibly empty) file component and a pointer component, fall back to
`current_file` when the file component is empty, read the effective file
(unconditionally), strip the root prefix from its absolute path, resolve
and merge-insert the file on first visit when the ref has its own file
component (`visitAndInsert`), and emit the canonical `#/definitions/...`
string.  A ref with neither file component nor current-file context passes
through unchanged; non-string ref values pass through unchanged. -/
def replace_ref (descend : Descend) (fs : Fs) (rootPath basePath : Fpath)
    (currentFile : Option String) (value : Json) (st : St) : Except Err (Json × St) :=
  match value with
  | Json.str refString =>
      let refParts := splitOnChar '#' refString
      let fileOption := (refParts.get? 0).filter fun s => s.length > 0
      let pathOption := refParts.get? 1
      match fileOption.or currentFile with
      | some relativeFilePath =>
          let absoluteFilePath := basePath ++ splitOnChar '/' relativeFilePath
          match fsRead fs absoluteFilePath with
          | none => Except.error (Err.couldNotRead relativeFilePath)
          | some contentOpt =>
              match stripRoot rootPath absoluteFilePath with
              | none => Except.error Err.stripRootPanic
              | some referenceParts =>
                  match visitAndInsert descend fileOption.isSome
                      relativeFilePath absoluteFilePath referenceParts contentOpt st with
                  | Except.error e => Except.error e
                  | Except.ok st3 =>
                      Except.ok (Json.str (canonicalRef referenceParts pathOption), st3)
      | none => Except.ok (Json.str refString, st)
  | x => Except.ok (x, st)

mutual

/-- `resolve_object` from `build.rs`, for one tree: objects have every field
resolved (`$ref` fields via `replace_ref`), then the numeric-`type`/`enum`
normalization is applied; arrays are resolved elementwise; scalars pass
through.  Cross-file recursion goes through `descend`. -/
def resolve_object (descend : Descend) (fs : Fs) (rootPath basePath : Fpath)
    (currentFile : Option String) (value : Json) (st : St) : Except Err (Json × St) :=
  match value with
  | Json.obj fields =>
      match resolveFields descend fs rootPath basePath currentFile fields [] st with
      | Except.error e => Except.error e
      | Except.ok (newMap, st2) =>
          let newMap2 :=
            match alistGet "type" newMap, alistGet "enum" newMap with
            | some (Json.str dataType), some (Json.arr _) =>
                if dataType = "integer" then alistRemove "enum" newMap
                else if dataType = "number" then alistRemove "enum" newMap
                else newMap
            | _, _ => newMap
          Except.ok (Json.obj newMap2, st2)
  | Json.arr elems =>
      match resolveElems descend fs rootPath basePath currentFile elems st with
      | Except.error e => Except.error e
      | Except.ok (newElems, st2) => Except.ok (Json.arr newElems, st2)
  | x => Except.ok (x, st)

/-- The `for (k, v) in map` loop of `resolve_object`, accumulating the
rebuilt field map. -/
def resolveFields (descend : Descend) (fs : Fs) (rootPath basePath : Fpath)
    (currentFile : Option String) (fields : List (String × Json))
    (acc : List (String × Json)) (st : St) : Except Err (List (String × Json) × St) :=
  match fields with
  | [] => Except.ok (acc, st)
  | (k, v) :: rest =>
      match (if k = "$ref"
             then replace_ref descend fs rootPath basePath currentFile v st
             else resolve_object descend fs rootPath basePath currentFile v st) with
      | Except.error e => Except.error e
      | Except.ok (newValue, st2) =>
          resolveFields descend fs rootPath basePath currentFile rest
            (alistInsert k newValue acc) st2

/-- The array loop of `resolve_object`. -/
def resolveElems (descend : Descend) (fs : Fs) (rootPath basePath : Fpath)
    (currentFile : Option String) (elems : List Json) (st : St) :
    Except Err (List Json × St) :=
  match elems with
  | [] => Except.ok ([], st)
  | v :: rest =>
      match resolve_object descend fs rootPath basePath currentFile v st with
      | Except.error e => Except.error e
      | Except.ok (newValue, st2) =>
          match resolveElems descend fs rootPath basePath currentFile rest st2 with
          | Except.error e => Except.error e
          | Except.ok (newRest, st3) => Except.ok (newValue :: newRest, st3)

end

/-- The fuel-indexed resolver: `resolveFuel (fuel+1)` runs `resolve_object`
with cross-file descents handled by `resolveFuel fuel`; fuel is consumed
exactly when `replace_ref` recurses into a referenced file's content, so a
run with more fuel than there are files never exhausts it (see the
termination theorem for claim C6). -/
def resolveFuel (fuel : Nat) (fs : Fs) (rootPath : Fpath) :
    Fpath → Option String → Json → St → Except Err (Json × St) :=
  match fuel with
  | 0 => fun _ _ _ _ => Except.error Err.fuelExhausted
  | fuel2 + 1 => resolve_object (resolveFuel fuel2 fs rootPath) fs rootPath

/-- `replace_ref` with the cross-file recursion instantiated at `fuel`
descents, matching the recursion of the Rust code. -/
def replace_refFuel (fuel : Nat) (fs : Fs) (rootPath basePath : Fpath)
    (currentFile : Option String) (value : Json) (st : St) : Except Err (Json × St) :=
  replace_ref (resolveFuel fuel fs rootPath) fs rootPath basePath currentFile value st

/-- `merge_schema` from `build.rs`: iterate over the directory entries (the
list of absolute file paths, in directory-iteration order), skip files whose
stem is `"definitions"`, and for every other file read it, parse it, resolve
it with both `root_path` and `base_path` set to its parent directory and no
current file, and bind its stem in the definitions table. -/
def merge_schema (fuel : Nat) (fs : Fs) (entries : List Fpath) (st : St) : Except Err St :=
  match entries with
  | [] => Except.ok st
  | path :: rest =>
      let fileName := file_stem (path.getLastD "")
      if fileName = "definitions" then merge_schema fuel fs rest st
      else
        match fsRead fs path with
        | none => Except.error (Err.couldNotReadEntry path)
        | some none => Except.error (Err.couldNotParseEntry path)
        | some (some value) =>
            let basePath := path.dropLast
            match resolveFuel fuel fs basePath basePath none value st with
            | Except.error e => Except.error e
            | Except.ok (v, st2) =>
                merge_schema fuel fs rest
                  { st2 with definitions := alistInsert fileName v st2.definitions }

/-- The number of readable files not yet visited; the fuel bound for the
termination theorem. -/
def unvisitedCount (fs : Fs) (visited : List Fpath) : Nat :=
  ((fsDom fs).toFinset.filter (fun p => p ∉ visited)).card

/-- How one resolution step may change the state: the visited set only
grows, every newcomer to the visited set is a readable file, and no key
ever disappears from the definitions table. -/
def StExtends (fs : Fs) (st st2 : St) : Prop :=
  (∀ p, p ∈ st.visited → p ∈ st2.visited) ∧
  (∀ p, p ∈ st2.visited → p ∈ st.visited ∨ p ∈ fsDom fs) ∧
  (∀ k, (alistGet k st.definitions).isSome = true →
    (alistGet k st2.definitions).isSome = true)

/-- Case-sensitive substring occurrence (observer used to express that an
error message "carries" a phrase or a path). -/
def carries (needle : List Char) : List Char → Bool
  | [] => needle.isEmpty
  | c :: rest => needle.isPrefixOf (c :: rest) || carries needle rest

mutual

/-- Rendering of a `Json` value to output text, modelling the serialization
used by `write("schema.json", to_string_pretty(&schema))`.  Whitespace and
indentation are simplified; the modelled aspect is that map entries are
emitted in iteration order, which is what the determinism claim turns on. -/
def renderValue : Json → String
  | Json.null => "null"
  | Json.bool b => cond b "true" "false"
  | Json.num n => toString n
  | Json.str s => "\"" ++ s ++ "\""
  | Json.arr es => "[" ++ String.intercalate "," (renderList es) ++ "]"
  | Json.obj fields => "\x7b" ++ String.intercalate "," (renderFields fields) ++ "\x7d"

def renderList : List Json → List String
  | [] => []
  | v :: rest => renderValue v :: renderList rest

def renderFields : List (String × Json) → List String
  | [] => []
  | (k, v) :: rest => ("\"" ++ k ++ "\":" ++ renderValue v) :: renderFields rest

end

/-- The text written to `schema.json`: one outer object with the single key
`definitions`, whose entries appear in the iteration order of the Rust
`HashMap<String, Value>` holding them.  The entry order is this function's
explicit argument (the list order); the Rust code leaves it to the
`HashMap`'s seed-dependent iteration order. -/
def schemaText (defsEntries : List (String × Json)) : String :=
  "\x7b\"definitions\":" ++ renderValue (Json.obj defsEntries) ++ "\x7d"

end Build

namespace Generated

/-!
Model of the discriminated-union glue emitted by `generate_extras` in
`extras_generator.rs`.  The generated Rust is a text template; the model
below embeds the behaviour of the emitted `FromStr for Message`
implementation, with the two `serde_json::from_str` calls (envelope decode
into `GenericMessage`, and full payload decode into the matched variant's
record) abstracted as function parameters, since their behaviour is
supplied by serde, not by this repository.  `Except.error` carries the
`Error::message` string of the generated `Error` struct.
-/

/-- One variant of the generated `Message` union: its Pascal-case name and
its `MESSAGE_ID` constant (from `properties.messageType.const`). -/
structure Variant where
  name : String
  messageId : Int
deriving DecidableEq

/-- The generated `FromStr::from_str` for `Message`: decode the envelope
(only the `messageType` field); on failure return the decode error prefixed
with `"Invalid message: "`.  Otherwise match the discriminant against the
variants' `MESSAGE_ID` constants in declaration order; no match yields
`"Unknown message type"`.  On a match, re-decode the full input into that
variant's record; a failure yields the decode error prefixed with
`"Invalid JSON: "`, and success yields the variant's case of `Message`. -/
def from_str {α : Type} (variants : List Variant)
    (envelopeDecode : String → Except String Int)
    (payloadDecode : Variant → String → Except String α)
    (s : String) : Except String (Variant × α) :=
  match envelopeDecode s with
  | Except.error e => Except.error ("Invalid message: " ++ e)
  | Except.ok code =>
      match variants.find? (fun v => v.messageId == code) with
      | none => Except.error "Unknown message type"
      | some v =>
          match payloadDecode v s with
          | Except.error e => Except.error ("Invalid JSON: " ++ e)
          | Except.ok p => Except.ok (v, p)

end Generated

/-! ### Theorems -/

namespace Build

mutual

theorem Json.beq_iff : ∀ (a b : Json), (Json.beq a b = true ↔ a = b)
  | Json.null, b => by cases b <;> simp [Json.beq]
  | Json.bool x, b => by cases b <;> simp [Json.beq]
  | Json.num x, b => by cases b <;> simp [Json.beq]
  | Json.str x, b => by cases b <;> simp [Json.beq]
  | Json.arr xs, b => by
      cases b <;> simp [Json.beq]
      exact Json.beqList_iff xs _
  | Json.obj xs, b => by
      cases b <;> simp [Json.beq]
      exact Json.beqFields_iff xs _

theorem Json.beqList_iff : ∀ (a b : List Json), (Json.beqList a b = true ↔ a = b)
  | [], b => by cases b <;> simp [Json.beqList]
  | x :: xs, [] => by simp [Json.beqList]
  | x :: xs, y :: ys => by
      simp [Json.beqList, Json.beq_iff x y, Json.beqList_iff xs ys]

theorem Json.beqFields_iff : ∀ (a b : List (String × Json)), (Json.beqFields a b = true ↔ a = b)
  | [], b => by cases b <;> simp [Json.beqFields]
  | x :: xs, [] => by simp [Json.beqFields]
  | (k, x) :: xs, (k2, y) :: ys => by
      simp [Json.beqFields, Json.beq_iff x y, Json.beqFields_iff xs ys, and_assoc]

end

instance : DecidableEq Json := fun a b =>
  decidable_of_iff (Json.beq a b = true) (Json.beq_iff a b)

deriving instance DecidableEq for St

deriving instance DecidableEq for Except

/-! #### Association-list facts -/

theorem alistGet_remove (k k2 : String) (m : List (String × Json)) :
    alistGet k2 (alistRemove k m) = if k = k2 then none else alistGet k2 m := by
  induction m with
  | nil => simp [alistRemove, alistGet]
  | cons p t ih =>
      obtain ⟨k3, v3⟩ := p
      by_cases h1 : k3 = k
      · subst h1
        by_cases h2 : k3 = k2
        · subst h2; simpa [alistRemove, alistGet] using ih
        · simpa [alistRemove, alistGet, h2] using ih
      · by_cases h2 : k3 = k2
        · subst h2
          have hk : ¬ k = k3 := fun h => h1 h.symm
          simp [alistRemove, alistGet, h1, hk]
        · simpa [alistRemove, alistGet, h1, h2] using ih

theorem alistGet_insert (k k2 : String) (v : Json) (m : List (String × Json)) :
    alistGet k2 (alistInsert k v m) = if k = k2 then some v else alistGet k2 m := by
  by_cases h : k = k2 <;> simp [alistInsert, alistGet, h, alistGet_remove]

theorem alistGet_insert_self (k : String) (v : Json) (m : List (String × Json)) :
    alistGet k (alistInsert k v m) = some v := by
  simp [alistGet_insert]

/-! #### Facts about `insert` -/

theorem insert_fst (parts : List String) (v : Json) (m : List (String × Json))
    (h : parts ≠ []) : (insert parts v m).1 = Json.obj (insert parts v m).2 := by
  cases parts with
  | nil => cases h rfl
  | cons key rest =>
      cases halist : alistGet key m with
      | none => simp [insert, halist]
      | some x => cases x <;> simp [insert, halist]

theorem insertWrites_of_get_none (parts : List String) (m : List (String × Json))
    (hne : parts ≠ []) (h : alistGet (parts.headD "") m = none) :
    insertWrites parts m = true := by
  cases parts with
  | nil => cases hne rfl
  | cons key rest => simp at h; simp [insertWrites, h]

/-- Where `insert` stores its value: exactly when the walk reaches an
absent key through existing objects (`insertWrites`); in every other case
the table's content at the walked path is untouched and the new value is
dropped. -/
theorem getPath_insert (parts : List String) (v : Json) (m : List (String × Json)) :
    (insertWrites parts m = true →
      getPath parts (Json.obj (insert parts v m).2) = some v) ∧
    (insertWrites parts m = false →
      getPath parts (Json.obj (insert parts v m).2) = getPath parts (Json.obj m)) := by
  induction parts generalizing m with
  | nil =>
      refine ⟨fun h => by simp [insertWrites] at h, fun _ => by simp [insert]⟩
  | cons key rest ih =>
      cases halist : alistGet key m with
      | none =>
          constructor
          · intro _
            simp only [insert, halist, getPath, alistGet_insert_self]
            cases rest with
            | nil => simp [insert, getPath]
            | cons r rs =>
                rw [insert_fst _ _ _ (by simp)]
                exact (ih []).1 (insertWrites_of_get_none _ _ (by simp) (by simp [alistGet]))
          · intro hw
            simp [insertWrites, halist] at hw
      | some x =>
          cases x with
          | obj em =>
              cases rest with
              | nil =>
                  constructor
                  · intro hw; simp [insertWrites, halist] at hw
                  · intro _
                    simp [insert, halist, getPath, alistGet_insert_self]
              | cons r rs =>
                  constructor
                  · intro hw
                    simp only [insertWrites, halist] at hw
                    simp only [insert, halist, getPath, alistGet_insert_self]
                    exact (ih em).1 hw
                  · intro hw
                    simp only [insertWrites, halist] at hw
                    simp only [insert, halist, getPath, alistGet_insert_self]
                    exact (ih em).2 hw
          | null =>
              refine ⟨fun hw => by simp [insertWrites, halist] at hw, fun _ => ?_⟩
              simp [insert, halist, getPath, alistGet_insert_self]
          | bool b =>
              refine ⟨fun hw => by simp [insertWrites, halist] at hw, fun _ => ?_⟩
              simp [insert, halist, getPath, alistGet_insert_self]
          | num n =>
              refine ⟨fun hw => by simp [insertWrites, halist] at hw, fun _ => ?_⟩
              simp [insert, halist, getPath, alistGet_insert_self]
          | str s =>
              refine ⟨fun hw => by simp [insertWrites, halist] at hw, fun _ => ?_⟩
              simp [insert, halist, getPath, alistGet_insert_self]
          | arr es =>
              refine ⟨fun hw => by simp [insertWrites, halist] at hw, fun _ => ?_⟩
              simp [insert, halist, getPath, alistGet_insert_self]

/-- `insert` never removes a path that was present: frame property of the
merge-insert. -/
theorem getPath_isSome_insert (p : List String) (v : Json) (t : List (String × Json)) :
    ∀ q, (getPath q (Json.obj t)).isSome = true →
      (getPath q (Json.obj (insert p v t).2)).isSome = true := by
  induction p generalizing t with
  | nil => intro q h; simpa [insert] using h
  | cons key rest ih =>
      intro q h
      cases q with
      | nil => simp [getPath]
      | cons qk qr =>
          by_cases hk : key = qk
          · subst hk
            cases halist : alistGet key t with
            | none => simp [getPath, halist] at h
            | some x =>
                cases x with
                | obj em =>
                    simp only [getPath, halist] at h
                    cases rest with
                    | nil =>
                        simp only [insert, halist, getPath, alistGet_insert_self]
                        simpa [insert] using h
                    | cons r rs =>
                        simp only [insert, halist, getPath, alistGet_insert_self]
                        exact ih em qr h
                | null => simpa [insert, halist, getPath, alistGet_insert_self] using h
                | bool b => simpa [insert, halist, getPath, alistGet_insert_self] using h
                | num n => simpa [insert, halist, getPath, alistGet_insert_self] using h
                | str s => simpa [insert, halist, getPath, alistGet_insert_self] using h
                | arr es => simpa [insert, halist, getPath, alistGet_insert_self] using h
          · cases halist : alistGet key t with
            | none =>
                simp only [insert, halist, getPath] at h ⊢
                rw [alistGet_insert]
                simpa [hk] using h
            | some x =>
                cases x <;>
                  · simp only [insert, halist, getPath] at h ⊢
                    rw [alistGet_insert]
                    simpa [hk] using h

/-- `alistGet` at the inserted singleton path is always populated. -/
theorem alistGet_insert_singleton_isSome (k : String) (v : Json)
    (m : List (String × Json)) :
    (alistGet k ((insert [k] v m).2)).isSome = true := by
  cases halist : alistGet k m with
  | none => simp [insert, halist, alistGet_insert_self]
  | some x => cases x <;> simp [insert, halist, alistGet_insert_self]

/-- Unfolding `insert` one step at an existing object. -/
theorem insert_cons_obj (key : String) (rest : List String) (v : Json)
    (m em : List (String × Json)) (h : alistGet key m = some (Json.obj em)) :
    (insert (key :: rest) v m).2 = alistInsert key (Json.obj (insert rest v em).2) m := by
  simp [insert, h]

/-- Unfolding `insert` one step at an absent key. -/
theorem insert_cons_none (key : String) (rest : List String) (v : Json)
    (m : List (String × Json)) (h : alistGet key m = none) :
    (insert (key :: rest) v m).2 = alistInsert key ((insert rest v []).1) m := by
  simp [insert, h]

end Build

namespace Build

/-! #### Claim C3: behaviour of `insert` at existing values -/

/-- Claim C3, counterexample: the claim states that a non-object existing
value is overwritten at the final segment, so that the value stored at the
full path is the newly inserted one.  In the code the `x => x` arm keeps
the existing non-object value and silently drops the new value: inserting
`1` at path `a` into a table whose `a` holds the string `"x"` leaves the
string in place. -/
theorem C3_counterexample :
    getPath ["a"] (Json.obj (insert ["a"] (Json.num 1) [("a", Json.str "x")]).2) =
      some (Json.str "x") ∧
    getPath ["a"] (Json.obj (insert ["a"] (Json.num 1) [("a", Json.str "x")]).2) ≠
      some (Json.num 1) := by
  decide

/-- Claim C3, amended: when the table already holds an object at a key on
the path, insertion recurses into that object for the remaining segments
rather than overwriting it (first conjunct).  But an existing value is
never overwritten: a non-object value at any segment — and any existing
value at the final segment, object or not — is kept, and the newly
inserted value is dropped; the new value ends up stored at the full path
exactly when the walk reaches an absent key through existing objects
(`insertWrites`), and otherwise the content at the walked path is
unchanged (second conjunct). -/
theorem C3_amended :
    (∀ (key : String) (rest : List String) (v : Json) (m : List (String × Json))
        (em : List (String × Json)), alistGet key m = some (Json.obj em) →
        (insert (key :: rest) v m).2 =
          alistInsert key (Json.obj (insert rest v em).2) m) ∧
    (∀ (parts : List String) (v : Json) (m : List (String × Json)),
        (insertWrites parts m = true →
          getPath parts (Json.obj (insert parts v m).2) = some v) ∧
        (insertWrites parts m = false →
          getPath parts (Json.obj (insert parts v m).2) = getPath parts (Json.obj m))) := by
  constructor
  · intro key rest v m em h
    simp [insert, h]
  · intro parts v m
    exact getPath_insert parts v m

/-- Claim C3, witness: inserting `7` at the fresh path `a.b` of a table
where `a` holds the object `(c ↦ 1)` recurses into that object and stores
the value. -/
theorem C3_witness :
    getPath ["a", "b"]
      (Json.obj (insert ["a", "b"] (Json.num 7) [("a", Json.obj [("c", Json.num 1)])]).2) =
      some (Json.num 7) :=
  (C3_amended.2 ["a", "b"] (Json.num 7) [("a", Json.obj [("c", Json.num 1)])]).1 (by decide)

/-! #### Claim C5: merge-insert is non-destructive for siblings -/

/-- Claim C5, counterexample: the claim quantifies over every table, but
when the table already binds `a` to a non-object, both inserts are dropped
(`insert` keeps the existing scalar) and neither `a.b` nor `a.c` is present
afterwards. -/
theorem C5_counterexample :
    getPath ["a", "b"] (Json.obj (insert ["a", "b"] (Json.num 2)
        (insert ["a", "c"] (Json.num 1) [("a", Json.num 5)]).2).2) = none ∧
    getPath ["a", "c"] (Json.obj (insert ["a", "b"] (Json.num 2)
        (insert ["a", "c"] (Json.num 1) [("a", Json.num 5)]).2).2) = none := by
  decide

/-- Claim C5, amended: for every table in which the key `a` is absent or
bound to an object, inserting at `a.b` after a prior insert at `a.c`
leaves both `a.b` and `a.c` present under `a` (first conjunct); and an
insert never removes any path that was present in the table (second
conjunct), in particular content at sibling or ancestor paths. -/
theorem C5_amended :
    (∀ (t : List (String × Json)) (v1 v2 : Json),
        (alistGet "a" t = none ∨ ∃ em, alistGet "a" t = some (Json.obj em)) →
        (getPath ["a", "b"]
          (Json.obj (insert ["a", "b"] v2 (insert ["a", "c"] v1 t).2).2)).isSome = true ∧
        (getPath ["a", "c"]
          (Json.obj (insert ["a", "b"] v2 (insert ["a", "c"] v1 t).2).2)).isSome = true) ∧
    (∀ (t : List (String × Json)) (p : List String) (v : Json) (q : List String),
        (getPath q (Json.obj t)).isSome = true →
        (getPath q (Json.obj (insert p v t).2)).isSome = true) := by
  constructor
  · intro t v1 v2 h
    obtain ⟨em1, hem1, hcem1⟩ :
        ∃ em1, alistGet "a" (insert ["a", "c"] v1 t).2 = some (Json.obj em1) ∧
          (alistGet "c" em1).isSome = true := by
      rcases h with hnone | ⟨em, hem⟩
      · refine ⟨[("c", v1)], ?_, by simp [alistGet]⟩
        have hc : (insert ["c"] v1 []).1 = Json.obj [("c", v1)] := by
          simp [insert, alistGet, alistInsert, alistRemove]
        rw [insert_cons_none _ _ _ _ hnone, hc, alistGet_insert_self]
      · refine ⟨(insert ["c"] v1 em).2, ?_, alistGet_insert_singleton_isSome _ _ _⟩
        rw [insert_cons_obj _ _ _ _ _ hem, alistGet_insert_self]
    have ht2 : (insert ["a", "b"] v2 (insert ["a", "c"] v1 t).2).2 =
        alistInsert "a" (Json.obj (insert ["b"] v2 em1).2) (insert ["a", "c"] v1 t).2 :=
      insert_cons_obj _ _ _ _ _ hem1
    constructor
    · rw [ht2]
      simp only [getPath, alistGet_insert_self]
      have hb := alistGet_insert_singleton_isSome "b" v2 em1
      cases hbe : alistGet "b" ((insert ["b"] v2 em1).2) with
      | none => rw [hbe] at hb; simp at hb
      | some w => simp [hbe, getPath]
    · rw [ht2]
      simp only [getPath, alistGet_insert_self]
      obtain ⟨w, hw⟩ := Option.isSome_iff_exists.mp hcem1
      have hsrc : (getPath ["c"] (Json.obj em1)).isSome = true := by
        simp [getPath, hw]
      have hframe := getPath_isSome_insert ["b"] v2 em1 ["c"] hsrc
      simpa [getPath] using hframe
  · intro t p v q h
    exact getPath_isSome_insert p v t q h

/-- Claim C5, witness: from the empty table, both `a.c` (inserted first)
and `a.b` (inserted second) are present afterwards. -/
theorem C5_witness :
    (getPath ["a", "b"] (Json.obj (insert ["a", "b"] (Json.num 2)
        (insert ["a", "c"] (Json.num 1) []).2).2)).isSome = true ∧
    (getPath ["a", "c"] (Json.obj (insert ["a", "b"] (Json.num 2)
        (insert ["a", "c"] (Json.num 1) []).2).2)).isSome = true :=
  C5_amended.1 [] (Json.num 1) (Json.num 2) (Or.inl (by decide))

end Build

namespace Build

/-! #### Claim C4: numeric enum stripping in `resolve_object` -/

/-- Claim C4: after resolving all fields of an object, if the resolved map
holds `type` with string value `"integer"` or `"number"` together with
`enum` holding an array, `resolve_object` removes the `enum` key from its
output (and `enum` is then absent); for any other `type` string the
resolved map — `enum` key and array included — is returned unchanged. -/
theorem C4_enum_normalization (descend : Descend) (fs : Fs) (rootPath basePath : Fpath)
    (currentFile : Option String) (fields : List (String × Json)) (st : St)
    (newMap : List (String × Json)) (st2 : St)
    (hrf : resolveFields descend fs rootPath basePath currentFile fields [] st =
      Except.ok (newMap, st2)) :
    (∀ (t : String) (a : List Json), alistGet "type" newMap = some (Json.str t) →
      (t = "integer" ∨ t = "number") → alistGet "enum" newMap = some (Json.arr a) →
      resolve_object descend fs rootPath basePath currentFile (Json.obj fields) st =
        Except.ok (Json.obj (alistRemove "enum" newMap), st2) ∧
      alistGet "enum" (alistRemove "enum" newMap) = none) ∧
    (∀ t : String, alistGet "type" newMap = some (Json.str t) →
      t ≠ "integer" → t ≠ "number" →
      resolve_object descend fs rootPath basePath currentFile (Json.obj fields) st =
        Except.ok (Json.obj newMap, st2)) := by
  constructor
  · intro t a htype hnum henum
    refine ⟨?_, by simp [alistGet_remove]⟩
    simp only [resolve_object, hrf]
    rcases hnum with h | h <;> subst h <;> simp [htype, henum]
  · intro t htype h1 h2
    simp only [resolve_object, hrf]
    simp [htype, h1, h2]
    cases henum : alistGet "enum" newMap with
    | none => simp
    | some x => cases x <;> simp [h1, h2]

/-- Claim C4, witness: the object with `type: "integer"` and
`enum: [1, 2, 3]` resolves (no refs involved, any descent) to the same
object with the `enum` key removed. -/
theorem C4_witness :
    resolve_object (resolveFuel 0 [] []) [] [] [] none
      (Json.obj [("type", Json.str "integer"),
        ("enum", Json.arr [Json.num 1, Json.num 2, Json.num 3])])
      { definitions := [], visited := [] } =
      Except.ok (Json.obj [("type", Json.str "integer")],
        { definitions := [], visited := [] }) := by
  have h := (C4_enum_normalization (resolveFuel 0 [] []) [] [] [] none
    [("type", Json.str "integer"),
      ("enum", Json.arr [Json.num 1, Json.num 2, Json.num 3])]
    { definitions := [], visited := [] }
    [("enum", Json.arr [Json.num 1, Json.num 2, Json.num 3]), ("type", Json.str "integer")]
    { definitions := [], visited := [] } (by decide)).1
    "integer" [Json.num 1, Json.num 2, Json.num 3] (by decide) (Or.inl rfl) (by decide)
  exact h.1.trans (by decide)

end Build

namespace Generated

/-! #### Claim C7: the generated two-phase parser -/

/-- Claim C7, counterexample: the claim says an unmatched discriminant
yields an error carrying `"unknown message type"`, but the generated code's
error text is `"Unknown message type"` (capital `U`), which does not
contain the claimed lowercase phrase. -/
theorem C7_counterexample :
    from_str (α := Nat) [⟨"Foo", 1⟩, ⟨"Bar", 2⟩] (fun _ => Except.ok 3)
        (fun _ _ => Except.ok 0) "input" = Except.error "Unknown message type" ∧
    Build.carries "unknown message type".toList "Unknown message type".toList = false := by
  decide

/-- Claim C7, amended: the generated `FromStr` first decodes only the
generic envelope; a malformed envelope yields the decode error prefixed
with `"Invalid message: "`; a discriminant matching no variant's
`MESSAGE_ID` yields the error `"Unknown message type"` (capital `U`); a
matching discriminant re-decodes the full input into that variant's
record, a malformed payload yielding the decode error prefixed with
`"Invalid JSON: "`, distinct in wording from the envelope prefix. -/
theorem C7_amended {α : Type} (variants : List Variant)
    (envelopeDecode : String → Except String Int)
    (payloadDecode : Variant → String → Except String α) (s : String) :
    (∀ e, envelopeDecode s = Except.error e →
      from_str variants envelopeDecode payloadDecode s =
        Except.error ("Invalid message: " ++ e)) ∧
    (∀ code, envelopeDecode s = Except.ok code →
      variants.find? (fun v => v.messageId == code) = none →
      from_str variants envelopeDecode payloadDecode s =
        Except.error "Unknown message type") ∧
    (∀ code v e, envelopeDecode s = Except.ok code →
      variants.find? (fun v => v.messageId == code) = some v →
      payloadDecode v s = Except.error e →
      from_str variants envelopeDecode payloadDecode s =
        Except.error ("Invalid JSON: " ++ e)) ∧
    (∀ code v p, envelopeDecode s = Except.ok code →
      variants.find? (fun v => v.messageId == code) = some v →
      payloadDecode v s = Except.ok p →
      from_str variants envelopeDecode payloadDecode s = Except.ok (v, p)) ∧
    "Invalid message: " ≠ "Invalid JSON: " := by
  refine ⟨?_, ?_, ?_, ?_, by decide⟩
  · intro e he; simp [from_str, he]
  · intro code hc hf; simp [from_str, hc, hf]
  · intro code v e hc hf hp; simp [from_str, hc, hf, hp]
  · intro code v p hc hf hp; simp [from_str, hc, hf, hp]

/-- Claim C7, witness: discriminant `3` against variants with ids `1` and
`2` produces the unknown-message-type failure. -/
theorem C7_witness :
    from_str (α := Nat) [⟨"Foo", 1⟩, ⟨"Bar", 2⟩] (fun _ => Except.ok 3)
        (fun _ _ => Except.error "missing field") "other" =
      Except.error "Unknown message type" :=
  (C7_amended [⟨"Foo", 1⟩, ⟨"Bar", 2⟩] (fun _ => Except.ok 3)
    (fun _ _ => Except.error "missing field") "other").2.1 3 rfl (by decide)

end Generated

namespace Build

/-! #### State-extension facts for the resolver -/

theorem stExtends_refl (fs : Fs) (st : St) : StExtends fs st st :=
  ⟨fun _ h => h, fun _ h => Or.inl h, fun _ h => h⟩

theorem stExtends_trans {fs : Fs} {a b c : St} (h1 : StExtends fs a b)
    (h2 : StExtends fs b c) : StExtends fs a c := by
  refine ⟨fun p hp => h2.1 p (h1.1 p hp), fun p hp => ?_, fun k hk => h2.2.2 k (h1.2.2 k hk)⟩
  rcases h2.2.1 p hp with h | h
  · exact h1.2.1 p h
  · exact Or.inr h

theorem fsRead_mem_dom (fs : Fs) (p : Fpath) (c : Option Json)
    (h : fsRead fs p = some c) : p ∈ fsDom fs := by
  induction fs with
  | nil => simp [fsRead] at h
  | cons q rest ih =>
      obtain ⟨qp, qc⟩ := q
      by_cases hq : qp = p
      · subst hq; simp [fsDom]
      · simp only [fsRead, if_neg hq] at h
        simp [fsDom]
        exact Or.inr (by simpa [fsDom] using ih h)

theorem getPath_singleton (k : String) (t : List (String × Json)) :
    getPath [k] (Json.obj t) = alistGet k t := by
  cases h : alistGet k t <;> simp [getPath, h]

theorem alistGet_isSome_insert (parts : List String) (v : Json)
    (m : List (String × Json)) (k : String)
    (h : (alistGet k m).isSome = true) :
    (alistGet k (insert parts v m).2).isSome = true := by
  have hsrc : (getPath [k] (Json.obj m)).isSome = true := by
    rw [getPath_singleton]; exact h
  have := getPath_isSome_insert parts v m [k] hsrc
  rwa [getPath_singleton] at this

theorem visitAndInsert_extends (descend : Descend) (fs : Fs)
    (hd : ∀ bp cf v st out st2, descend bp cf v st = Except.ok (out, st2) →
      StExtends fs st st2)
    (fileIsSome : Bool) (rel : String) (abs parts : Fpath) (contentOpt : Option Json)
    (st st2 : St) (habs : abs ∈ fsDom fs)
    (h : visitAndInsert descend fileIsSome rel abs parts contentOpt st = Except.ok st2) :
    StExtends fs st st2 := by
  cases fileIsSome with
  | false =>
      simp only [visitAndInsert, Bool.false_eq_true, if_false] at h
      cases h; exact stExtends_refl fs st
  | true =>
      simp only [visitAndInsert, if_true] at h
      by_cases hv : abs ∈ st.visited
      · rw [if_pos hv] at h; cases h; exact stExtends_refl fs st
      · rw [if_neg hv] at h
        cases contentOpt with
        | none => cases h
        | some contentValue =>
            dsimp only at h
            cases hdes : descend abs.dropLast (some rel) contentValue
                { st with visited := abs :: st.visited } with
            | error e => rw [hdes] at h; cases h
            | ok p =>
                obtain ⟨resolvedValue, stx⟩ := p
                rw [hdes] at h
                cases h
                have hext := hd _ _ _ _ _ _ hdes
                refine ⟨fun p hp => hext.1 p (by simp [hp]), fun p hp => ?_, fun k hk => ?_⟩
                · rcases hext.2.1 p hp with hin | hin
                  · simp at hin
                    rcases hin with rfl | hin
                    · exact Or.inr habs
                    · exact Or.inl hin
                  · exact Or.inr hin
                · exact alistGet_isSome_insert parts resolvedValue stx.definitions k
                    (hext.2.2 k hk)

theorem replace_ref_extends (descend : Descend) (fs : Fs)
    (hd : ∀ bp cf v st out st2, descend bp cf v st = Except.ok (out, st2) →
      StExtends fs st st2)
    (rootPath basePath : Fpath) (currentFile : Option String) (v : Json) (st : St)
    (out : Json) (st2 : St)
    (h : replace_ref descend fs rootPath basePath currentFile v st = Except.ok (out, st2)) :
    StExtends fs st st2 := by
  cases v with
  | str refString =>
      simp only [replace_ref] at h
      cases hfile : ((splitOnChar '#' refString).get? 0).filter (fun s => s.length > 0) |>.or
          currentFile with
      | none => rw [hfile] at h; dsimp only at h; cases h; exact stExtends_refl fs st
      | some relativeFilePath =>
          rw [hfile] at h
          dsimp only at h
          cases hread : fsRead fs (basePath ++ splitOnChar '/' relativeFilePath) with
          | none => rw [hread] at h; cases h
          | some contentOpt =>
              rw [hread] at h
              dsimp only at h
              cases hstrip : stripRoot rootPath (basePath ++ splitOnChar '/' relativeFilePath) with
              | none => rw [hstrip] at h; cases h
              | some referenceParts =>
                  rw [hstrip] at h
                  dsimp only at h
                  cases hvi : visitAndInsert descend
                      (((splitOnChar '#' refString).get? 0).filter
                        (fun s => s.length > 0)).isSome
                      relativeFilePath (basePath ++ splitOnChar '/' relativeFilePath)
                      referenceParts contentOpt st with
                  | error e => rw [hvi] at h; cases h
                  | ok st3 =>
                      rw [hvi] at h
                      cases h
                      exact visitAndInsert_extends descend fs hd _ _ _ _ _ _ _
                        (fsRead_mem_dom fs _ _ hread) hvi
  | null => simp only [replace_ref] at h; cases h; exact stExtends_refl fs st
  | bool b => simp only [replace_ref] at h; cases h; exact stExtends_refl fs st
  | num n => simp only [replace_ref] at h; cases h; exact stExtends_refl fs st
  | arr es => simp only [replace_ref] at h; cases h; exact stExtends_refl fs st
  | obj fields => simp only [replace_ref] at h; cases h; exact stExtends_refl fs st

end Build

namespace Build

mutual

theorem resolve_object_extends (descend : Descend) (fs : Fs)
    (hd : ∀ bp cf v st out st2, descend bp cf v st = Except.ok (out, st2) →
      StExtends fs st st2) :
    ∀ (rootPath basePath : Fpath) (currentFile : Option String) (v : Json) (st : St)
      (out : Json) (st2 : St),
      resolve_object descend fs rootPath basePath currentFile v st = Except.ok (out, st2) →
      StExtends fs st st2
  | rootPath, basePath, currentFile, Json.obj fields, st, out, st2 => by
      intro h
      simp only [resolve_object] at h
      cases hrf : resolveFields descend fs rootPath basePath currentFile fields [] st with
      | error e => rw [hrf] at h; cases h
      | ok p =>
          obtain ⟨newMap, st3⟩ := p
          rw [hrf] at h
          dsimp only at h
          cases h
          exact resolveFields_extends descend fs hd rootPath basePath currentFile fields []
            st _ _ hrf
  | rootPath, basePath, currentFile, Json.arr elems, st, out, st2 => by
      intro h
      simp only [resolve_object] at h
      cases hre : resolveElems descend fs rootPath basePath currentFile elems st with
      | error e => rw [hre] at h; cases h
      | ok p =>
          obtain ⟨newElems, st3⟩ := p
          rw [hre] at h
          dsimp only at h
          cases h
          exact resolveElems_extends descend fs hd rootPath basePath currentFile elems
            st _ _ hre
  | rootPath, basePath, currentFile, Json.null, st, out, st2 => by
      intro h; simp only [resolve_object] at h; cases h; exact stExtends_refl fs st
  | rootPath, basePath, currentFile, Json.bool b, st, out, st2 => by
      intro h; simp only [resolve_object] at h; cases h; exact stExtends_refl fs st
  | rootPath, basePath, currentFile, Json.num n, st, out, st2 => by
      intro h; simp only [resolve_object] at h; cases h; exact stExtends_refl fs st
  | rootPath, basePath, currentFile, Json.str s, st, out, st2 => by
      intro h; simp only [resolve_object] at h; cases h; exact stExtends_refl fs st

theorem resolveFields_extends (descend : Descend) (fs : Fs)
    (hd : ∀ bp cf v st out st2, descend bp cf v st = Except.ok (out, st2) →
      StExtends fs st st2) :
    ∀ (rootPath basePath : Fpath) (currentFile : Option String)
      (fields : List (String × Json)) (acc : List (String × Json)) (st : St)
      (outMap : List (String × Json)) (st2 : St),
      resolveFields descend fs rootPath basePath currentFile fields acc st =
        Except.ok (outMap, st2) →
      StExtends fs st st2
  | rootPath, basePath, currentFile, [], acc, st, outMap, st2 => by
      intro h; simp only [resolveFields] at h; cases h; exact stExtends_refl fs st
  | rootPath, basePath, currentFile, (k, v) :: rest, acc, st, outMap, st2 => by
      intro h
      simp only [resolveFields] at h
      cases hcall : (if k = "$ref"
          then replace_ref descend fs rootPath basePath currentFile v st
          else resolve_object descend fs rootPath basePath currentFile v st) with
      | error e => rw [hcall] at h; cases h
      | ok p =>
          obtain ⟨newValue, stx⟩ := p
          rw [hcall] at h
          dsimp only at h
          have h1 : StExtends fs st stx := by
            by_cases hk : k = "$ref"
            · rw [if_pos hk] at hcall
              exact replace_ref_extends descend fs hd rootPath basePath currentFile v st
                newValue stx hcall
            · rw [if_neg hk] at hcall
              exact resolve_object_extends descend fs hd rootPath basePath currentFile v st
                newValue stx hcall
          exact stExtends_trans h1
            (resolveFields_extends descend fs hd rootPath basePath currentFile rest
              (alistInsert k newValue acc) stx outMap st2 h)

theorem resolveElems_extends (descend : Descend) (fs : Fs)
    (hd : ∀ bp cf v st out st2, descend bp cf v st = Except.ok (out, st2) →
      StExtends fs st st2) :
    ∀ (rootPath basePath : Fpath) (currentFile : Option String) (elems : List Json)
      (st : St) (outElems : List Json) (st2 : St),
      resolveElems descend fs rootPath basePath currentFile elems st =
        Except.ok (outElems, st2) →
      StExtends fs st st2
  | rootPath, basePath, currentFile, [], st, outElems, st2 => by
      intro h; simp only [resolveElems] at h; cases h; exact stExtends_refl fs st
  | rootPath, basePath, currentFile, v :: rest, st, outElems, st2 => by
      intro h
      simp only [resolveElems] at h
      cases hcall : resolve_object descend fs rootPath basePath currentFile v st with
      | error e => rw [hcall] at h; cases h
      | ok p =>
          obtain ⟨newValue, stx⟩ := p
          rw [hcall] at h
          dsimp only at h
          cases hrest : resolveElems descend fs rootPath basePath currentFile rest stx with
          | error e => rw [hrest] at h; cases h
          | ok q =>
              obtain ⟨newRest, sty⟩ := q
              rw [hrest] at h
              dsimp only at h
              cases h
              exact stExtends_trans
                (resolve_object_extends descend fs hd rootPath basePath currentFile v st
                  newValue stx hcall)
                (resolveElems_extends descend fs hd rootPath basePath currentFile rest stx
                  _ _ hrest)

end

theorem resolveFuel_extends (fs : Fs) (rootPath : Fpath) :
    ∀ (fuel : Nat) (basePath : Fpath) (currentFile : Option String) (v : Json) (st : St)
      (out : Json) (st2 : St),
      resolveFuel fuel fs rootPath basePath currentFile v st = Except.ok (out, st2) →
      StExtends fs st st2 := by
  intro fuel
  induction fuel with
  | zero => intro bp cf v st out st2 h; simp [resolveFuel] at h
  | succ n ih =>
      intro bp cf v st out st2 h
      exact resolve_object_extends (resolveFuel n fs rootPath) fs
        (fun bp2 cf2 v2 stA outA stB hh => ih bp2 cf2 v2 stA outA stB hh)
        rootPath bp cf v st out st2 (by simpa [resolveFuel] using h)

end Build

namespace Build

theorem strLen_pos_of_ne (f : String) (hf : f ≠ "") : 0 < f.length := by
  obtain ⟨l⟩ := f
  cases l with
  | nil => cases hf rfl
  | cons c cs => simp [String.length]

/-- One-step unfolding of `replace_ref` for a reference string whose file
component is non-empty: the file component wins over `current_file`, the
pointer component is the part after the first `#`, and the insert step runs
with `file_option.is_some() = true`. -/
theorem replace_ref_eq_of (descend : Descend) (fs : Fs) (rootPath basePath : Fpath)
    (currentFile : Option String) (r f : String) (restParts : List String) (st : St)
    (hsplit : splitOnChar '#' r = f :: restParts) (hf : f ≠ "") :
    replace_ref descend fs rootPath basePath currentFile (Json.str r) st =
      (match fsRead fs (basePath ++ splitOnChar '/' f) with
       | none => Except.error (Err.couldNotRead f)
       | some contentOpt =>
           match stripRoot rootPath (basePath ++ splitOnChar '/' f) with
           | none => Except.error Err.stripRootPanic
           | some referenceParts =>
               match visitAndInsert descend true f (basePath ++ splitOnChar '/' f)
                   referenceParts contentOpt st with
               | Except.error e => Except.error e
               | Except.ok st3 =>
                   Except.ok (Json.str (canonicalRef referenceParts (restParts.get? 0)), st3)) := by
  have hlen : decide (f.length > 0) = true := decide_eq_true (strLen_pos_of_ne f hf)
  simp only [replace_ref, hsplit, List.get?_cons_zero, List.get?_cons_succ,
    Option.filter, hlen, if_true, Option.or, Option.isSome]

end Build

namespace Build

/-! #### Claim C2: diamond references and visited-set idempotence -/

/-- Claim C2: a `$ref` with a non-empty file component whose effective file
was already visited leaves the definitions table and visited set exactly
unchanged and still emits the canonical string, which is recomputed from
the path alone (first conjunct); on a first encounter the same canonical
string is emitted and the absolute path ends up in the visited set, so any
later encounter of the same absolute path falls under the first conjunct —
the file is parsed, resolved, and merge-inserted only that once (second
conjunct). -/
theorem C2_visited_idempotence (fuel : Nat) (fs : Fs) (rootPath basePath : Fpath)
    (currentFile : Option String) (r f : String) (restParts : List String) (st : St)
    (c : Option Json) (parts : Fpath)
    (hsplit : splitOnChar '#' r = f :: restParts) (hf : f ≠ "")
    (hread : fsRead fs (basePath ++ splitOnChar '/' f) = some c)
    (hstrip : stripRoot rootPath (basePath ++ splitOnChar '/' f) = some parts) :
    ((basePath ++ splitOnChar '/' f) ∈ st.visited →
      replace_refFuel fuel fs rootPath basePath currentFile (Json.str r) st =
        Except.ok (Json.str (canonicalRef parts (restParts.get? 0)), st)) ∧
    ((basePath ++ splitOnChar '/' f) ∉ st.visited →
      ∀ out st2,
        replace_refFuel fuel fs rootPath basePath currentFile (Json.str r) st =
          Except.ok (out, st2) →
        out = Json.str (canonicalRef parts (restParts.get? 0)) ∧
        (basePath ++ splitOnChar '/' f) ∈ st2.visited) := by
  constructor
  · intro hv
    simp only [replace_refFuel]
    rw [replace_ref_eq_of _ _ _ _ _ _ _ _ _ hsplit hf, hread]
    dsimp only
    rw [hstrip]
    dsimp only
    simp [visitAndInsert, hv]
  · intro hv out st2 hok
    simp only [replace_refFuel] at hok
    rw [replace_ref_eq_of _ _ _ _ _ _ _ _ _ hsplit hf, hread] at hok
    dsimp only at hok
    rw [hstrip] at hok
    dsimp only at hok
    cases hvi : visitAndInsert (resolveFuel fuel fs rootPath) true f
        (basePath ++ splitOnChar '/' f) parts c st with
    | error e => rw [hvi] at hok; cases hok
    | ok st3 =>
        rw [hvi] at hok
        dsimp only at hok
        cases hok
        refine ⟨rfl, ?_⟩
        simp only [visitAndInsert, if_true] at hvi
        rw [if_neg hv] at hvi
        cases c with
        | none => cases hvi
        | some cv =>
            dsimp only at hvi
            cases hdes : resolveFuel fuel fs rootPath
                (basePath ++ splitOnChar '/' f).dropLast (some f) cv
                { st with visited := (basePath ++ splitOnChar '/' f) :: st.visited } with
            | error e => rw [hdes] at hvi; cases hvi
            | ok p =>
                obtain ⟨rv, stx⟩ := p
                rw [hdes] at hvi
                dsimp only at hvi
                cases hvi
                have hext := resolveFuel_extends fs rootPath fuel _ _ _ _ _ _ hdes
                exact hext.1 _ (by simp)

/-- Claim C2, witness: with `root/sub/file.json` already visited, the ref
`sub/file.json#/foo/bar` leaves the state untouched and emits the same
canonical string a first encounter would emit. -/
theorem C2_witness :
    replace_refFuel 1 [(["root", "sub", "file.json"], some (Json.obj []))]
      ["root"] ["root"] none (Json.str "sub/file.json#/foo/bar")
      { definitions := [], visited := [["root", "sub", "file.json"]] } =
      Except.ok (Json.str (canonicalRef ["sub", "file.json"] (["/foo/bar"].get? 0)),
        { definitions := [], visited := [["root", "sub", "file.json"]] }) :=
  (C2_visited_idempotence 1 [(["root", "sub", "file.json"], some (Json.obj []))]
    ["root"] ["root"] none "sub/file.json#/foo/bar" "sub/file.json" ["/foo/bar"]
    { definitions := [], visited := [["root", "sub", "file.json"]] }
    (some (Json.obj [])) ["sub", "file.json"]
    (by decide) (by decide) (by decide) (by decide)).1 (by decide)

end Build

namespace Build

/-! #### Claim C1: shape of the canonical reference string -/

theorem canonicalRef_eq (parts : Fpath) (ptr : String) (h : parts ≠ []) :
    canonicalRef parts (some ptr) =
      "#/definitions/" ++ String.intercalate "/" parts ++ ptr := by
  have hne : parts.isEmpty = false := by
    cases parts with
    | nil => cases h rfl
    | cons a l => rfl
  have hlit : ("#/definitions" ++ "/" : String) = "#/definitions/" := rfl
  simp only [canonicalRef, hne, Bool.false_eq_true, if_false, hlit]

/-- Claim C1, counterexample: resolving `sub/file.json#/foo/bar` with root
at the schema directory produces `#/definitions/sub/file.json/foo/bar` —
the `.json` extension is kept, because the key path is built from the raw
path components, not from file stems — and not the claimed
`#/definitions/sub/file/foo/bar`. -/
theorem C1_counterexample :
    emittedString (replace_refFuel 1 [(["root", "sub", "file.json"], some (Json.obj []))]
      ["root"] ["root"] none (Json.str "sub/file.json#/foo/bar")
      { definitions := [], visited := [] }) = "#/definitions/sub/file.json/foo/bar" ∧
    emittedString (replace_refFuel 1 [(["root", "sub", "file.json"], some (Json.obj []))]
      ["root"] ["root"] none (Json.str "sub/file.json#/foo/bar")
      { definitions := [], visited := [] }) ≠ "#/definitions/sub/file/foo/bar" := by
  decide

/-- Claim C1, amended: for every `$ref` string with a non-empty file
component, a successful `replace_ref` emits `"#/definitions/"`, the
segments of the effective file's path relative to `root_path` joined with
`"/"` — extensions included, no stem extraction — followed by the original
pointer component verbatim; in particular `sub/file.json#/foo/bar` with
root at the schema directory produces exactly
`#/definitions/sub/file.json/foo/bar`. -/
theorem C1_amended :
    (∀ (descend : Descend) (fs : Fs) (rootPath basePath : Fpath)
      (currentFile : Option String) (r f ptr : String) (st : St) (parts : Fpath)
      (out : Json) (st2 : St),
      splitOnChar '#' r = [f, ptr] → f ≠ "" →
      stripRoot rootPath (basePath ++ splitOnChar '/' f) = some parts → parts ≠ [] →
      replace_ref descend fs rootPath basePath currentFile (Json.str r) st =
        Except.ok (out, st2) →
      out = Json.str ("#/definitions/" ++ String.intercalate "/" parts ++ ptr)) ∧
    (replace_refFuel 1 [(["root", "sub", "file.json"], some (Json.obj []))]
      ["root"] ["root"] none (Json.str "sub/file.json#/foo/bar")
      { definitions := [], visited := [] } =
      Except.ok (Json.str "#/definitions/sub/file.json/foo/bar",
        { definitions := [("sub", Json.obj [("file.json", Json.obj [])])],
          visited := [["root", "sub", "file.json"]] })) := by
  constructor
  · intro descend fs rootPath basePath currentFile r f ptr st parts out st2
      hsplit hf hstrip hparts hok
    rw [replace_ref_eq_of _ _ _ _ _ _ _ _ _ hsplit hf] at hok
    cases hread : fsRead fs (basePath ++ splitOnChar '/' f) with
    | none => rw [hread] at hok; cases hok
    | some c =>
        rw [hread] at hok
        dsimp only at hok
        rw [hstrip] at hok
        dsimp only at hok
        cases hvi : visitAndInsert descend true f (basePath ++ splitOnChar '/' f) parts c st with
        | error e => rw [hvi] at hok; cases hok
        | ok st3 =>
            rw [hvi] at hok
            dsimp only at hok
            cases hok
            rw [show ([ptr].get? 0) = some ptr from rfl, canonicalRef_eq parts ptr hparts]
  · decide

/-- Claim C1, witness: the general emission rule applied to the concrete
ref `sub/file.json#/foo/bar` at the schema root. -/
theorem C1_witness :
    Json.str "#/definitions/sub/file.json/foo/bar" =
      Json.str ("#/definitions/" ++ String.intercalate "/" ["sub", "file.json"] ++ "/foo/bar") :=
  C1_amended.1 (resolveFuel 1 [(["root", "sub", "file.json"], some (Json.obj []))] ["root"])
    [(["root", "sub", "file.json"], some (Json.obj []))] ["root"] ["root"] none
    "sub/file.json#/foo/bar" "sub/file.json" "/foo/bar"
    { definitions := [], visited := [] } ["sub", "file.json"]
    (Json.str "#/definitions/sub/file.json/foo/bar")
    { definitions := [("sub", Json.obj [("file.json", Json.obj [])])],
      visited := [["root", "sub", "file.json"]] }
    (by decide) (by decide) (by decide) (by decide) (by decide)

/-! #### Claim C8: error reporting for unreadable and unparsable files -/

theorem isPrefixOf_self (n : List Char) : n.isPrefixOf n = true := by
  induction n with
  | nil => rfl
  | cons c cs ih => simp [List.isPrefixOf, ih]

theorem carries_append_right (n pre : List Char) : carries n (pre ++ n) = true := by
  induction pre with
  | nil =>
      cases n with
      | nil => rfl
      | cons c cs => simp [carries, isPrefixOf_self]
  | cons c pre2 ih => simp [carries, ih]

/-- Claim C8, counterexample: a referenced file that is readable but
unparsable aborts the run through the bare `.unwrap()` on
`serde_json::from_str`, whose panic message renders only the decode error —
the offending file path appears nowhere in it. -/
theorem C8_counterexample :
    replace_refFuel 1 [(["root", "bad.json"], none)] ["root"] ["root"] none
      (Json.str "bad.json#/x") { definitions := [], visited := [] } =
      Except.error Err.parseUnwrap ∧
    carries "bad.json".toList (errMsg Err.parseUnwrap).toList = false := by
  decide

/-- Claim C8, amended: resolving a `$ref` to an unreadable file aborts the
run with the fatal `Could not read {path}` error, whose message carries the
offending (relative) file path; resolving a `$ref` to a readable but
unparsable file also aborts the run fatally — no partial output is
produced in either case — but through a bare `unwrap`, so that error's
message does not carry the file path. -/
theorem C8_amended (descend : Descend) (fs : Fs) (rootPath basePath : Fpath)
    (currentFile : Option String) (r f : String) (restParts : List String) (st : St)
    (hsplit : splitOnChar '#' r = f :: restParts) (hf : f ≠ "") :
    (fsRead fs (basePath ++ splitOnChar '/' f) = none →
      replace_ref descend fs rootPath basePath currentFile (Json.str r) st =
        Except.error (Err.couldNotRead f) ∧
      carries f.toList (errMsg (Err.couldNotRead f)).toList = true) ∧
    (∀ parts, fsRead fs (basePath ++ splitOnChar '/' f) = some none →
      stripRoot rootPath (basePath ++ splitOnChar '/' f) = some parts →
      (basePath ++ splitOnChar '/' f) ∉ st.visited →
      replace_ref descend fs rootPath basePath currentFile (Json.str r) st =
        Except.error Err.parseUnwrap) := by
  constructor
  · intro hread
    constructor
    · rw [replace_ref_eq_of _ _ _ _ _ _ _ _ _ hsplit hf, hread]
    · have hdata : (errMsg (Err.couldNotRead f)).toList =
          "Could not read ".toList ++ f.toList := rfl
      rw [hdata]
      exact carries_append_right f.toList "Could not read ".toList
  · intro parts hread hstrip hv
    rw [replace_ref_eq_of _ _ _ _ _ _ _ _ _ hsplit hf, hread]
    dsimp only
    rw [hstrip]
    dsimp only
    simp [visitAndInsert, hv]

/-- Claim C8, witness: a `$ref` to a missing file fails with the fatal
read error carrying the file's relative path. -/
theorem C8_witness :
    replace_ref (resolveFuel 1 [] ["root"]) [] ["root"] ["root"] none
      (Json.str "missing.json#/x") { definitions := [], visited := [] } =
      Except.error (Err.couldNotRead "missing.json") ∧
    carries "missing.json".toList (errMsg (Err.couldNotRead "missing.json")).toList = true :=
  (C8_amended (resolveFuel 1 [] ["root"]) [] ["root"] ["root"] none
    "missing.json#/x" "missing.json" ["/x"] { definitions := [], visited := [] }
    (by decide) (by decide)).1 (by decide)

end Build

namespace Build

/-! #### Fuel-sufficiency: the resolver terminates -/

theorem unvisited_le_of_extends (fs : Fs) (st st2 : St) (h : StExtends fs st st2) :
    unvisitedCount fs st2.visited ≤ unvisitedCount fs st.visited := by
  apply Finset.card_le_card
  intro p hp
  simp only [unvisitedCount, Finset.mem_filter] at hp ⊢
  exact ⟨hp.1, fun hmem => hp.2 (h.1 p hmem)⟩

theorem unvisited_lt_cons (fs : Fs) (visited : List Fpath) (p : Fpath)
    (hdom : p ∈ fsDom fs) (hnv : p ∉ visited) :
    unvisitedCount fs (p :: visited) < unvisitedCount fs visited := by
  apply Finset.card_lt_card
  rw [Finset.ssubset_iff_of_subset]
  · exact ⟨p, by simp [Finset.mem_filter, List.mem_toFinset, hdom, hnv],
      by simp [Finset.mem_filter]⟩
  · intro q hq
    simp only [Finset.mem_filter, List.mem_toFinset] at hq ⊢
    refine ⟨hq.1, fun hmem => hq.2 (by simp [hmem])⟩

theorem visitAndInsert_nofuel (descend : Descend) (fs : Fs) (N : Nat)
    (hdnf : ∀ bp cf v st, unvisitedCount fs st.visited < N →
      descend bp cf v st ≠ Except.error Err.fuelExhausted)
    (fileIsSome : Bool) (rel : String) (abs parts : Fpath) (contentOpt : Option Json)
    (st : St) (habs : abs ∈ fsDom fs)
    (hb : unvisitedCount fs st.visited < N + 1) :
    visitAndInsert descend fileIsSome rel abs parts contentOpt st ≠
      Except.error Err.fuelExhausted := by
  intro heq
  cases fileIsSome with
  | false => simp [visitAndInsert] at heq
  | true =>
      simp only [visitAndInsert, if_true] at heq
      by_cases hv : abs ∈ st.visited
      · rw [if_pos hv] at heq; cases heq
      · rw [if_neg hv] at heq
        cases contentOpt with
        | none => simp at heq
        | some cv =>
            dsimp only at heq
            cases hdes : descend abs.dropLast (some rel) cv
                { st with visited := abs :: st.visited } with
            | error e =>
                rw [hdes] at heq
                dsimp only at heq
                cases heq
                have hlt : unvisitedCount fs (abs :: st.visited) < N :=
                  Nat.lt_of_lt_of_le (unvisited_lt_cons fs st.visited abs habs hv)
                    (Nat.lt_succ_iff.mp hb)
                exact hdnf _ _ _ _ hlt hdes
            | ok p =>
                obtain ⟨rv, stx⟩ := p
                rw [hdes] at heq
                dsimp only at heq
                cases heq

theorem replace_ref_nofuel (descend : Descend) (fs : Fs) (N : Nat)
    (hdnf : ∀ bp cf v st, unvisitedCount fs st.visited < N →
      descend bp cf v st ≠ Except.error Err.fuelExhausted)
    (rootPath basePath : Fpath) (currentFile : Option String) (v : Json) (st : St)
    (hb : unvisitedCount fs st.visited < N + 1) :
    replace_ref descend fs rootPath basePath currentFile v st ≠
      Except.error Err.fuelExhausted := by
  intro heq
  cases v with
  | str refString =>
      simp only [replace_ref] at heq
      cases hfile : ((splitOnChar '#' refString).get? 0).filter (fun s => s.length > 0) |>.or
          currentFile with
      | none => rw [hfile] at heq; cases heq
      | some relativeFilePath =>
          rw [hfile] at heq
          dsimp only at heq
          cases hread : fsRead fs (basePath ++ splitOnChar '/' relativeFilePath) with
          | none => rw [hread] at heq; simp at heq
          | some contentOpt =>
              rw [hread] at heq
              dsimp only at heq
              cases hstrip : stripRoot rootPath
                  (basePath ++ splitOnChar '/' relativeFilePath) with
              | none => rw [hstrip] at heq; simp at heq
              | some referenceParts =>
                  rw [hstrip] at heq
                  dsimp only at heq
                  cases hvi : visitAndInsert descend
                      (((splitOnChar '#' refString).get? 0).filter
                        (fun s => s.length > 0)).isSome
                      relativeFilePath (basePath ++ splitOnChar '/' relativeFilePath)
                      referenceParts contentOpt st with
                  | error e =>
                      rw [hvi] at heq
                      dsimp only at heq
                      cases heq
                      exact visitAndInsert_nofuel descend fs N hdnf _ _ _ _ _ _
                        (fsRead_mem_dom fs _ _ hread) hb hvi
                  | ok st3 => rw [hvi] at heq; dsimp only at heq; cases heq
  | null => simp [replace_ref] at heq
  | bool b => simp [replace_ref] at heq
  | num n => simp [replace_ref] at heq
  | arr es => simp [replace_ref] at heq
  | obj fields => simp [replace_ref] at heq

mutual

theorem resolve_object_nofuel (descend : Descend) (fs : Fs) (N : Nat)
    (hdext : ∀ bp cf v st out st2, descend bp cf v st = Except.ok (out, st2) →
      StExtends fs st st2)
    (hdnf : ∀ bp cf v st, unvisitedCount fs st.visited < N →
      descend bp cf v st ≠ Except.error Err.fuelExhausted) :
    ∀ (rootPath basePath : Fpath) (currentFile : Option String) (v : Json) (st : St),
      unvisitedCount fs st.visited < N + 1 →
      resolve_object descend fs rootPath basePath currentFile v st ≠
        Except.error Err.fuelExhausted
  | rootPath, basePath, currentFile, Json.obj fields, st => by
      intro hb heq
      simp only [resolve_object] at heq
      cases hrf : resolveFields descend fs rootPath basePath currentFile fields [] st with
      | error e =>
          rw [hrf] at heq
          dsimp only at heq
          cases heq
          exact resolveFields_nofuel descend fs N hdext hdnf rootPath basePath currentFile
            fields [] st hb hrf
      | ok p => rw [hrf] at heq; dsimp only at heq; cases heq
  | rootPath, basePath, currentFile, Json.arr elems, st => by
      intro hb heq
      simp only [resolve_object] at heq
      cases hre : resolveElems descend fs rootPath basePath currentFile elems st with
      | error e =>
          rw [hre] at heq
          dsimp only at heq
          cases heq
          exact resolveElems_nofuel descend fs N hdext hdnf rootPath basePath currentFile
            elems st hb hre
      | ok p => rw [hre] at heq; dsimp only at heq; cases heq
  | rootPath, basePath, currentFile, Json.null, st => by intro hb heq; simp [resolve_object] at heq
  | rootPath, basePath, currentFile, Json.bool b, st => by intro hb heq; simp [resolve_object] at heq
  | rootPath, basePath, currentFile, Json.num n, st => by intro hb heq; simp [resolve_object] at heq
  | rootPath, basePath, currentFile, Json.str s, st => by intro hb heq; simp [resolve_object] at heq

theorem resolveFields_nofuel (descend : Descend) (fs : Fs) (N : Nat)
    (hdext : ∀ bp cf v st out st2, descend bp cf v st = Except.ok (out, st2) →
      StExtends fs st st2)
    (hdnf : ∀ bp cf v st, unvisitedCount fs st.visited < N →
      descend bp cf v st ≠ Except.error Err.fuelExhausted) :
    ∀ (rootPath basePath : Fpath) (currentFile : Option String)
      (fields : List (String × Json)) (acc : List (String × Json)) (st : St),
      unvisitedCount fs st.visited < N + 1 →
      resolveFields descend fs rootPath basePath currentFile fields acc st ≠
        Except.error Err.fuelExhausted
  | rootPath, basePath, currentFile, [], acc, st => by
      intro hb heq; simp [resolveFields] at heq
  | rootPath, basePath, currentFile, (k, v) :: rest, acc, st => by
      intro hb heq
      simp only [resolveFields] at heq
      cases hcall : (if k = "$ref"
          then replace_ref descend fs rootPath basePath currentFile v st
          else resolve_object descend fs rootPath basePath currentFile v st) with
      | error e =>
          rw [hcall] at heq
          dsimp only at heq
          cases heq
          by_cases hk : k = "$ref"
          · rw [if_pos hk] at hcall
            exact replace_ref_nofuel descend fs N hdnf rootPath basePath currentFile v st
              hb hcall
          · rw [if_neg hk] at hcall
            exact resolve_object_nofuel descend fs N hdext hdnf rootPath basePath
              currentFile v st hb hcall
      | ok p =>
          obtain ⟨newValue, stx⟩ := p
          rw [hcall] at heq
          dsimp only at heq
          have hext : StExtends fs st stx := by
            by_cases hk : k = "$ref"
            · rw [if_pos hk] at hcall
              exact replace_ref_extends descend fs hdext rootPath basePath currentFile v st
                newValue stx hcall
            · rw [if_neg hk] at hcall
              exact resolve_object_extends descend fs hdext rootPath basePath currentFile v
                st newValue stx hcall
          have hbx : unvisitedCount fs stx.visited < N + 1 :=
            Nat.lt_of_le_of_lt (unvisited_le_of_extends fs st stx hext) hb
          exact resolveFields_nofuel descend fs N hdext hdnf rootPath basePath currentFile
            rest (alistInsert k newValue acc) stx hbx heq

theorem resolveElems_nofuel (descend : Descend) (fs : Fs) (N : Nat)
    (hdext : ∀ bp cf v st out st2, descend bp cf v st = Except.ok (out, st2) →
      StExtends fs st st2)
    (hdnf : ∀ bp cf v st, unvisitedCount fs st.visited < N →
      descend bp cf v st ≠ Except.error Err.fuelExhausted) :
    ∀ (rootPath basePath : Fpath) (currentFile : Option String) (elems : List Json)
      (st : St),
      unvisitedCount fs st.visited < N + 1 →
      resolveElems descend fs rootPath basePath currentFile elems st ≠
        Except.error Err.fuelExhausted
  | rootPath, basePath, currentFile, [], st => by
      intro hb heq; simp [resolveElems] at heq
  | rootPath, basePath, currentFile, v :: rest, st => by
      intro hb heq
      simp only [resolveElems] at heq
      cases hcall : resolve_object descend fs rootPath basePath currentFile v st with
      | error e =>
          rw [hcall] at heq
          dsimp only at heq
          cases heq
          exact resolve_object_nofuel descend fs N hdext hdnf rootPath basePath currentFile
            v st hb hcall
      | ok p =>
          obtain ⟨newValue, stx⟩ := p
          rw [hcall] at heq
          dsimp only at heq
          have hext : StExtends fs st stx :=
            resolve_object_extends descend fs hdext rootPath basePath currentFile v st
              newValue stx hcall
          have hbx : unvisitedCount fs stx.visited < N + 1 :=
            Nat.lt_of_le_of_lt (unvisited_le_of_extends fs st stx hext) hb
          cases hrest : resolveElems descend fs rootPath basePath currentFile rest stx with
          | error e =>
              rw [hrest] at heq
              dsimp only at heq
              cases heq
              exact resolveElems_nofuel descend fs N hdext hdnf rootPath basePath
                currentFile rest stx hbx hrest
          | ok q => obtain ⟨a, b⟩ := q; rw [hrest] at heq; dsimp only at heq; cases heq

end

theorem resolveFuel_nofuel (fs : Fs) (rootPath : Fpath) :
    ∀ (fuel : Nat) (basePath : Fpath) (currentFile : Option String) (v : Json) (st : St),
      unvisitedCount fs st.visited < fuel →
      resolveFuel fuel fs rootPath basePath currentFile v st ≠
        Except.error Err.fuelExhausted := by
  intro fuel
  induction fuel with
  | zero => intro bp cf v st hb; cases Nat.not_lt_zero _ hb
  | succ n ih =>
      intro bp cf v st hb heq
      exact resolve_object_nofuel (resolveFuel n fs rootPath) fs n
        (fun bp2 cf2 v2 stA outA stB hh => resolveFuel_extends fs rootPath n bp2 cf2 v2 stA outA stB hh)
        (fun bp2 cf2 v2 stA hlt => ih bp2 cf2 v2 stA hlt)
        rootPath bp cf v st hb (by simpa [resolveFuel] using heq)

end Build

namespace Build

/-- Claim C6: resolution terminates for every finite file system, cycles
included.  Each absolute path is added to the visited set before its
content is recursively resolved, so every cross-file descent strictly
shrinks the set of unvisited readable files; consequently a fuel budget
larger than the number of unvisited files is never exhausted (first
conjunct), which is exactly the termination of the Rust recursion, whose
call depth the fuel counts.  A file that references itself completes
resolution, the self-reference resolving to its own canonical path (second
conjunct, a direct evaluation of a one-file cycle). -/
theorem C6_termination :
    (∀ (fuel : Nat) (fs : Fs) (rootPath basePath : Fpath) (currentFile : Option String)
      (v : Json) (st : St), unvisitedCount fs st.visited < fuel →
      resolveFuel fuel fs rootPath basePath currentFile v st ≠
        Except.error Err.fuelExhausted) ∧
    (resolveFuel 2 [(["root", "a.json"], some (Json.obj [("$ref", Json.str "a.json#/x")]))]
      ["root"] ["root"] none (Json.obj [("$ref", Json.str "a.json#/x")])
      { definitions := [], visited := [] } =
      Except.ok (Json.obj [("$ref", Json.str "#/definitions/a.json/x")],
        { definitions := [("a.json", Json.obj [("$ref", Json.str "#/definitions/a.json/x")])],
          visited := [["root", "a.json"]] })) := by
  constructor
  · intro fuel fs rootPath basePath currentFile v st hb
    exact resolveFuel_nofuel fs rootPath fuel basePath currentFile v st hb
  · decide

/-- Claim C6, witness: the one-file cycle has one unvisited file, so fuel 2
suffices and resolution does not exhaust it. -/
theorem C6_witness :
    unvisitedCount [(["root", "a.json"], some (Json.obj [("$ref", Json.str "a.json#/x")]))]
      [] < 2 ∧
    resolveFuel 2 [(["root", "a.json"], some (Json.obj [("$ref", Json.str "a.json#/x")]))]
      ["root"] ["root"] none (Json.obj [("$ref", Json.str "a.json#/x")])
      { definitions := [], visited := [] } ≠ Except.error Err.fuelExhausted :=
  ⟨by decide, C6_termination.1 2
    [(["root", "a.json"], some (Json.obj [("$ref", Json.str "a.json#/x")]))]
    ["root"] ["root"] none (Json.obj [("$ref", Json.str "a.json#/x")])
    { definitions := [], visited := [] } (by decide)⟩

end Build

namespace Build

/-! #### Claim C9: determinism of the merged output -/

/-- Claim C9, counterexample: the claim asserts byte-identical `schema.json`
text across runs.  The resolver's output is written by serializing a Rust
`HashMap`, whose iteration order is seeded per process and not fixed by
the inputs; the two orders below enumerate the very same definitions table
(they are permutations of each other), yet the emitted texts differ — so
the text is not a function of the table alone, and byte-identity across
runs is not guaranteed. -/
theorem C9_counterexample :
    List.Perm [("a", Json.null), ("b", Json.null)] [("b", Json.null), ("a", Json.null)] ∧
    schemaText [("a", Json.null), ("b", Json.null)] ≠
      schemaText [("b", Json.null), ("a", Json.null)] := by
  exact ⟨List.Perm.swap _ _ _, by decide⟩

/-- Claim C9, amended: two runs on the same input files produce definitions
tables that are equal as maps — the entry lists can differ only in order
(the `HashMap` iteration order), and permuted tables with distinct keys
agree on every lookup; the serialized text is byte-identical only once
that entry order is fixed. -/
theorem C9_amended (d e : List (String × Json)) (hperm : d.Perm e) :
    (d.map Prod.fst).Nodup → ∀ k, alistGet k d = alistGet k e := by
  induction hperm with
  | nil => intro _ k; rfl
  | cons x h ih =>
      intro hnd k
      obtain ⟨x1, x2⟩ := x
      by_cases hx : x1 = k
      · simp [alistGet, hx]
      · simp only [alistGet, if_neg hx]
        exact ih (by simpa [List.nodup_cons] using hnd.of_cons) k
  | swap x y l =>
      intro hnd k
      obtain ⟨x1, x2⟩ := x
      obtain ⟨y1, y2⟩ := y
      have hxy : y1 ≠ x1 := by
        simp [List.nodup_cons] at hnd
        exact hnd.1.1
      by_cases hy : y1 = k
      · have hx : ¬ x1 = k := fun h => hxy (hy.trans h.symm)
        simp [alistGet, hy, hx]
      · by_cases hx : x1 = k
        · simp [alistGet, hy, hx]
        · simp [alistGet, hy, hx]
  | trans h1 h2 ih1 ih2 =>
      intro hnd k
      rw [ih1 hnd k, ih2 ((h1.map Prod.fst).nodup hnd) k]

/-- Claim C9, witness: the two entry orders of the counterexample table
agree on every key. -/
theorem C9_witness :
    alistGet "a" [("a", Json.null), ("b", Json.null)] =
      alistGet "a" [("b", Json.null), ("a", Json.null)] :=
  C9_amended [("a", Json.null), ("b", Json.null)] [("b", Json.null), ("a", Json.null)]
    (List.Perm.swap _ _ _) (by decide) "a"

/-! #### Claim C10: `merge_schema` skips files with stem `definitions` -/

theorem merge_schema_preserves (fuel : Nat) (fs : Fs) :
    ∀ (entries : List Fpath) (st st2 : St),
      merge_schema fuel fs entries st = Except.ok st2 →
      ∀ k, (alistGet k st.definitions).isSome = true →
        (alistGet k st2.definitions).isSome = true := by
  intro entries
  induction entries with
  | nil =>
      intro st st2 h k hk
      simp only [merge_schema] at h
      cases h
      exact hk
  | cons path rest ih =>
      intro st st2 h k hk
      simp only [merge_schema] at h
      by_cases hname : file_stem (path.getLastD "") = "definitions"
      · rw [if_pos hname] at h
        exact ih st st2 h k hk
      · rw [if_neg hname] at h
        cases hread : fsRead fs path with
        | none => rw [hread] at h; cases h
        | some c =>
            rw [hread] at h
            cases c with
            | none => simp at h
            | some value =>
                dsimp only at h
                cases hres : resolveFuel fuel fs path.dropLast path.dropLast none value st with
                | error e => rw [hres] at h; cases h
                | ok p =>
                    obtain ⟨v, stx⟩ := p
                    rw [hres] at h
                    dsimp only at h
                    have hx : (alistGet k stx.definitions).isSome = true :=
                      (resolveFuel_extends fs path.dropLast fuel _ _ _ _ _ _ hres).2.2 k hk
                    have hy : (alistGet k (alistInsert (file_stem (path.getLastD "")) v
                        stx.definitions)).isSome = true := by
                      rw [alistGet_insert]
                      split
                      · rfl
                      · exact hx
                    exact ih _ st2 h k hy

/-- Claim C10: `merge_schema` skips every directory entry whose file stem is
`"definitions"` — such an entry is neither read, nor resolved, nor bound as
a top-level key: the state and the rest of the run are exactly as if the
entry were absent (first conjunct); and every other entry's stem ends up
present as a key of the output definitions table (second conjunct). -/
theorem C10_definitions_skip :
    (∀ (fuel : Nat) (fs : Fs) (path : Fpath) (rest : List Fpath) (st : St),
      file_stem (path.getLastD "") = "definitions" →
      merge_schema fuel fs (path :: rest) st = merge_schema fuel fs rest st) ∧
    (∀ (fuel : Nat) (fs : Fs) (entries : List Fpath) (st st2 : St),
      merge_schema fuel fs entries st = Except.ok st2 →
      ∀ path ∈ entries, file_stem (path.getLastD "") ≠ "definitions" →
        (alistGet (file_stem (path.getLastD "")) st2.definitions).isSome = true) := by
  constructor
  · intro fuel fs path rest st h
    simp only [merge_schema]
    rw [if_pos h]
  · intro fuel fs entries
    induction entries with
    | nil => intro st st2 h path hmem; cases hmem
    | cons p rest ih =>
        intro st st2 h path hmem hne
        simp only [merge_schema] at h
        by_cases hname : file_stem (p.getLastD "") = "definitions"
        · rw [if_pos hname] at h
          rcases List.mem_cons.mp hmem with rfl | hmem2
          · cases hne hname
          · exact ih st st2 h path hmem2 hne
        · rw [if_neg hname] at h
          cases hread : fsRead fs p with
          | none => rw [hread] at h; cases h
          | some c =>
              rw [hread] at h
              cases c with
              | none => simp at h
              | some value =>
                  dsimp only at h
                  cases hres : resolveFuel fuel fs p.dropLast p.dropLast none value st with
                  | error e => rw [hres] at h; cases h
                  | ok q =>
                      obtain ⟨v, stx⟩ := q
                      rw [hres] at h
                      dsimp only at h
                      rcases List.mem_cons.mp hmem with rfl | hmem2
                      · refine merge_schema_preserves fuel fs rest _ st2 h _ ?_
                        rw [alistGet_insert_self]
                        rfl
                      · exact ih _ st2 h path hmem2 hne

/-- Claim C10, witness: a directory holding `definitions.json` and `a.json`
merges to a table with `a` present and the `definitions.json` entry
skipped. -/
theorem C10_witness :
    (alistGet (file_stem ((["root", "a.json"] : Fpath).getLastD ""))
      [("a", Json.null)]).isSome = true :=
  C10_definitions_skip.2 1 [(["root", "a.json"], some Json.null)]
    [["root", "definitions.json"], ["root", "a.json"]]
    { definitions := [], visited := [] }
    { definitions := [("a", Json.null)], visited := [] }
    (by decide) ["root", "a.json"] (by decide) (by decide)

end Build
